import Mathlib

/-!
Verification of the match/highlight engine and the retention buffer of `src/sig.rs`.

The source file delegates regular-expression matching to the `grep` crate
(`RegexMatcherBuilder::build_many` + `Matcher::find_iter_at`).  That third-party
matcher is embedded here as an executable model:

* `Regex` is the abstract syntax reachable from the modelled pattern grammar
  (literal characters, grouping, Kleene star); all other metacharacters are
  modelled as a pattern-compile error, matching the fail-soft error path of the
  source.  `buildMany` combines the sub-patterns into one alternation; as in
  `regex-syntax` (`Hir::alternation`), the alternation of zero patterns is the
  regex that matches nothing (`Regex.fail`).
* `lengthsF` lists the lengths of the matches of a regex at the head of a
  string, in the backtracking priority order of the crate (alternatives
  left-to-right, star greedy).  The `fuel` argument bounds the recursion depth;
  every unfolding of a star consumes at least one character, so the fuel chosen
  in `lengths` is an upper bound and never runs out.
* `find_at`/`findIter` model `Matcher::find_at`/`try_find_iter`: leftmost match,
  then repeated scanning where a zero-length match advances the search position
  by one and a zero-length match immediately following a previous match is
  skipped.
* Lines are modelled as `List Char`; positions are character indices, which for
  the ASCII lines of the specification coincide with the byte offsets used by
  the source.
* A styled line (`StyledGraphemes`) is modelled as a list of characters each
  carrying an optional style; `apply_style_at` out of range is a no-op, as in
  `promkit`.

The retention buffer update of `run` (sig.rs lines 117-120) is modelled by
`runPush`/`runQueue`: on each received line, first pop the front if the length
exceeds the capacity, then push the line at the back.
-/

/-- Abstract syntax of the modelled regular expressions.  `fail` matches
nothing (the alternation of zero patterns), `eps` matches the empty string. -/
inductive Regex where
  | fail : Regex
  | eps : Regex
  | char : Char → Regex
  | alt : Regex → Regex → Regex
  | seq : Regex → Regex → Regex
  | star : Regex → Regex
deriving DecidableEq, Repr

/-- Structural size of a regex, used to compute a sufficient fuel bound. -/
def Regex.size : Regex → Nat
  | .fail => 1
  | .eps => 1
  | .char _ => 1
  | .alt r1 r2 => r1.size + r2.size + 1
  | .seq r1 r2 => r1.size + r2.size + 1
  | .star r1 => r1.size + 1

/-- Does the regex match the empty string? -/
def nullable : Regex → Bool
  | .fail => false
  | .eps => true
  | .char _ => false
  | .alt r1 r2 => nullable r1 || nullable r2
  | .seq r1 r2 => nullable r1 && nullable r2
  | .star _ => true

/-- Single-character comparison honouring the `case_insensitive` flag that the
source passes to `RegexMatcherBuilder::case_insensitive` (simple case folding,
modelled with `Char.toLower`). -/
def charMatch (ci : Bool) (c x : Char) : Bool :=
  if ci then c.toLower == x.toLower else c == x

/-- Lengths of the matches of `r` at the head of `s`, in backtracking priority
order: alternatives left-to-right, star greedy (longest continuation first,
empty repetition last).  `fuel` bounds the recursion depth; each unfolding of a
star consumes at least one character (`0 < n1`), so any fuel at least
`(r.size + 1) * (s.length + 2)` is sufficient. -/
def lengthsF (ci : Bool) : Nat → Regex → List Char → List Nat
  | 0, _, _ => []
  | f + 1, r, s =>
    match r with
    | .fail => []
    | .eps => [0]
    | .char c =>
      match s with
      | [] => []
      | x :: _ => if charMatch ci c x then [1] else []
    | .alt r1 r2 => lengthsF ci f r1 s ++ lengthsF ci f r2 s
    | .seq r1 r2 =>
      (lengthsF ci f r1 s).flatMap (fun n1 =>
        (lengthsF ci f r2 (s.drop n1)).map (fun n2 => n1 + n2))
    | .star r1 =>
      ((lengthsF ci f r1 s).flatMap (fun n1 =>
        if 0 < n1 then (lengthsF ci f (.star r1) (s.drop n1)).map (fun n2 => n1 + n2)
        else [])) ++ [0]

/-- Match lengths of `r` at the head of `s`, with sufficient fuel. -/
def lengths (ci : Bool) (r : Regex) (s : List Char) : List Nat :=
  lengthsF ci ((r.size + 1) * (s.length + 2)) r s

/-- Scan the suffix `t` (starting at absolute position `i`) for the leftmost
match; at the first position where the regex matches, return the range given by
the highest-priority match length. -/
def findAtAux (ci : Bool) (re : Regex) : List Char → Nat → Option (Nat × Nat)
  | [], i =>
    match lengths ci re [] with
    | n :: _ => some (i, i + n)
    | [] => none
  | x :: rest, i =>
    match lengths ci re (x :: rest) with
    | n :: _ => some (i, i + n)
    | [] => findAtAux ci re rest (i + 1)

/-- Model of `Matcher::find_at`: leftmost match of `re` in `s` at or after
position `p`. -/
def find_at (ci : Bool) (re : Regex) (s : List Char) (p : Nat) : Option (Nat × Nat) :=
  findAtAux ci re (s.drop p) p

/-- Model of the loop of `Matcher::try_find_iter`: repeatedly find the next
match starting at `lastEnd`; a zero-length match advances `lastEnd` by one and
is skipped when it immediately follows the previous match (`lastMatch`).
The fuel is an upper bound on the number of iterations; `lastEnd` strictly
increases each round and the loop stops once it passes the end, so
`s.length + 2` is sufficient. -/
def findIterGo (ci : Bool) (re : Regex) (s : List Char) :
    Nat → Nat → Option Nat → List (Nat × Nat)
  | 0, _, _ => []
  | f + 1, lastEnd, lastMatch =>
    if s.length < lastEnd then []
    else
      match find_at ci re s lastEnd with
      | none => []
      | some (ms, me) =>
        if ms = me then
          if lastMatch = some me then findIterGo ci re s f (me + 1) lastMatch
          else (ms, me) :: findIterGo ci re s f (me + 1) (some me)
        else (ms, me) :: findIterGo ci re s f me (some me)

/-- All matches produced by the find-iterator of the matcher on `s`. -/
def findIter (ci : Bool) (re : Regex) (s : List Char) : List (Nat × Nat) :=
  findIterGo ci re s (s.length + 2) 0 none

/-- Metacharacters of the pattern grammar that the model does not support;
a sub-pattern containing one is modelled as failing to compile.  `(`/`)` are
handled by the parser itself. -/
def metaCh (c : Char) : Bool :=
  c == '.' || c == '+' || c == '?' || c == '[' || c == ']' || c == '^' ||
  c == '$' || c == '\\' || c == '|' || c == '*' ||
  c == Char.ofNat 123 || c == Char.ofNat 125

/-- Recursive-descent parser for one sub-pattern: a concatenation of atoms
(literal characters or parenthesised groups), each optionally followed by `*`.
Returns the parsed regex together with the unconsumed input (which starts with
`)` when inside a group).  A leading or doubled `*`, an unsupported
metacharacter, or an unclosed group is a parse error (`none`).  `fuel` bounds
the recursion depth; every step consumes at least one character, so
`input.length + 1` is sufficient. -/
def parseE : Nat → Regex → List Char → Option (Regex × List Char)
  | 0, _, _ => none
  | _ + 1, acc, [] => some (acc, [])
  | f + 1, acc, c :: rest =>
    if c = ')' then some (acc, c :: rest)
    else if c = '(' then
      match parseE f .eps rest with
      | some (r, c2 :: rest2) =>
        if c2 = ')' then
          match rest2 with
          | '*' :: rest3 => parseE f (.seq acc (.star r)) rest3
          | _ => parseE f (.seq acc r) rest2
        else none
      | _ => none
    else if metaCh c then none
    else
      match rest with
      | '*' :: rest2 => parseE f (.seq acc (.star (.char c))) rest2
      | _ => parseE f (.seq acc (.char c)) rest

/-- Compile one sub-pattern; `none` models a regex compile error. -/
def parsePattern (p : List Char) : Option Regex :=
  match parseE (p.length + 1) .eps p with
  | some (r, []) => some r
  | _ => none

/-- Compile every sub-pattern; any failure fails the whole build. -/
def parseAll : List (List Char) → Option (List Regex)
  | [] => some []
  | p :: rest =>
    match parsePattern p, parseAll rest with
    | some r, some rs => some (r :: rs)
    | _, _ => none

/-- Model of `RegexMatcherBuilder::build_many`: compile each sub-pattern and
take the alternation; the alternation of zero patterns matches nothing. -/
def buildMany (ps : List (List Char)) : Option Regex :=
  match parseAll ps with
  | none => none
  | some rs => some (rs.foldr .alt .fail)

/-- Model of `str::trim` (whitespace at both ends removed). -/
def trim (s : List Char) : List Char :=
  ((s.dropWhile Char.isWhitespace).reverse.dropWhile Char.isWhitespace).reverse

/-- The sub-pattern list of `styled` (sig.rs lines 45-49): split the query on
`|`, trim each part, drop the empty parts. -/
def piped (query : List Char) : List (List Char) :=
  ((query.splitOn '|').map trim).filter (fun s => !s.isEmpty)

/-- Model of `matched` (sig.rs lines 24-37): build the multi-pattern matcher
and collect the iterator's matches until one starts at or past the end of the
line (the closure returns `false` there, stopping the iteration).  `none`
models the `Err` result of a failed pattern compilation. -/
def matched (queries : List (List Char)) (line : List Char) (case_insensitive : Bool) :
    Option (List (Nat × Nat)) :=
  match buildMany queries with
  | none => none
  | some re =>
    some ((findIter case_insensitive re line).takeWhile (fun m => decide (m.1 < line.length)))

/-- Model of `StyledGraphemes::apply_style_at`: set the style of the grapheme
at index `i`; out of range it is a no-op. -/
def apply_style_at {σ : Type u} : List (Char × Option σ) → Nat → σ → List (Char × Option σ)
  | [], _, _ => []
  | p :: rest, 0, st => (p.1, some st) :: rest
  | p :: rest, i + 1, st => p :: apply_style_at rest i st

/-- Model of `styled` (sig.rs lines 39-72): on the empty query return the line
unstyled; otherwise run `matched` on the sub-patterns, return `none` on a
compile error or when no match was collected, and otherwise apply the
highlight style at every position of every matched range. -/
def styled {σ : Type u} (query line : List Char) (highlight_style : σ)
    (case_insensitive : Bool) : Option (List (Char × Option σ)) :=
  let styled0 := line.map (fun c => (c, (none : Option σ)))
  if query.isEmpty then some styled0
  else
    match matched (piped query) line case_insensitive with
    | some ms =>
      if ms.isEmpty then none
      else
        some (ms.foldl (fun acc m =>
          (List.range' m.1 (m.2 - m.1)).foldl
            (fun a i => apply_style_at a i highlight_style) acc) styled0)
    | none => none

/-- The style carried by position `i` of a styled line. -/
def styleAt {σ : Type u} (s : List (Char × Option σ)) (i : Nat) : Option σ :=
  (s.get? i).bind (fun p => p.2)

/-- Is position `i` inside one of the ranges? -/
def inRanges (ms : List (Nat × Nat)) (i : Nat) : Bool :=
  ms.any (fun m => decide (m.1 ≤ i) && decide (i < m.2))

/-- The positions of one match range. -/
def rangeIdx (m : Nat × Nat) : List Nat :=
  List.range' m.1 (m.2 - m.1)

/-- The ranges `styled` highlights for a query: the collected matches, or no
ranges at all on a compile error. -/
def rangesOf (query line : List Char) (case_insensitive : Bool) : List (Nat × Nat) :=
  (matched (piped query) line case_insensitive).getD []

/-- Apply the style at every index of `idxs` in turn. -/
def applyIdx {σ : Type u} (st : σ) (acc : List (Char × Option σ)) (idxs : List Nat) :
    List (Char × Option σ) :=
  idxs.foldl (fun a i => apply_style_at a i st) acc

/-- One step of the retention-buffer update of `run` (sig.rs lines 117-120):
if the length exceeds the capacity pop the front, then push the line at the
back. -/
def runPush {α : Type u} (cap : Nat) (q : List α) (l : α) : List α :=
  (if cap < q.length then q.tail else q) ++ [l]

/-- The retention buffer after the render loop has received `lines` in order,
starting from the empty buffer. -/
def runQueue {α : Type u} (cap : Nat) (lines : List α) : List α :=
  lines.foldl (runPush cap) []

/-! ### Retention buffer -/

theorem runPush_length_le {α : Type u} (cap : Nat) (q : List α) (l : α)
    (h : q.length ≤ cap + 1) : (runPush cap q l).length ≤ cap + 1 := by
  unfold runPush
  split <;> simp [List.length_tail] <;> omega

theorem foldl_runPush_eq {α : Type u} (cap : Nat) (lines : List α) :
    ∀ q : List α, q.length ≤ cap + 1 →
      lines.foldl (runPush cap) q = (q ++ lines).drop (q.length + lines.length - (cap + 1)) := by
  induction lines with
  | nil =>
    intro q h
    simp [Nat.sub_eq_zero_of_le h]
  | cons x rest ih =>
    intro q h
    rw [List.foldl_cons, ih (runPush cap q x) (runPush_length_le cap q x h)]
    unfold runPush
    by_cases hc : cap < q.length
    · rw [if_pos hc]
      cases q with
      | nil => simp at hc
      | cons a t =>
        have ht : t.length = cap := by simp at h hc; omega
        have e1 : ((a :: t).tail ++ [x]) ++ rest = t ++ x :: rest := by simp
        have e2 : ((a :: t).tail ++ [x]).length + rest.length - (cap + 1) = rest.length := by
          simp [ht]
        have e3 : (a :: t).length + (x :: rest).length - (cap + 1) = rest.length + 1 := by
          simp [ht]
        rw [e1, e2, e3, List.cons_append, List.drop_succ_cons]
    · rw [if_neg hc]
      have e1 : (q ++ [x]) ++ rest = q ++ x :: rest := by simp
      have e2 : (q ++ [x]).length + rest.length - (cap + 1)
          = q.length + (x :: rest).length - (cap + 1) := by
        simp
        omega
      rw [e1, e2]

theorem runQueue_eq {α : Type u} (cap : Nat) (lines : List α) :
    runQueue cap lines = lines.drop (lines.length - (cap + 1)) := by
  have h := foldl_runPush_eq cap lines [] (by simp)
  simpa [runQueue] using h

theorem runQueue_length_le {α : Type u} (cap : Nat) (lines : List α) :
    (runQueue cap lines).length ≤ cap + 1 := by
  rw [runQueue_eq]
  simp [List.length_drop]
  omega

/-- C1 counterexample: with capacity 3 and arrival sequence ["a","b","c","d"],
the Retention Buffer at loop exit is ["a","b","c","d"] — its length is 4,
exceeding the capacity 3, and it is not ["b","c","d"] as the claim states. -/
theorem retention_capacity_cex :
    runQueue 3 ["a", "b", "c", "d"] = ["a", "b", "c", "d"]
    ∧ ¬ (runQueue 3 ["a", "b", "c", "d"]).length ≤ 3
    ∧ runQueue 3 ["a", "b", "c", "d"] ≠ ["b", "c", "d"] := by
  decide

/-- C1 (amended): for every configured capacity c, the Retention Buffer's
length never exceeds c + 1 after any sequence of pushes; with c = 3 and the
arrival sequence ["a","b","c","d"], the buffer returned at loop exit equals
["a","b","c","d"]; and after c + 2 pushes the buffer is the tail of the pushed
sequence, so its first element is the 2nd pushed line. -/
theorem retention_amended_capacity_plus_one {α : Type u} (cap : Nat) (lines : List α) :
    (runQueue cap lines).length ≤ cap + 1
    ∧ runQueue 3 ["a", "b", "c", "d"] = ["a", "b", "c", "d"]
    ∧ (lines.length = cap + 2 → runQueue cap lines = lines.tail) := by
  refine ⟨runQueue_length_le cap lines, by decide, fun hlen => ?_⟩
  rw [runQueue_eq, hlen]
  have h1 : cap + 2 - (cap + 1) = 1 := by omega
  rw [h1, List.drop_one]

/-- Witness for the amended C1 at capacity 1 and pushes ["a","b","c"]. -/
theorem retention_amended_capacity_plus_one_witness :
    (runQueue 1 ["a", "b", "c"]).length ≤ 2
    ∧ runQueue 3 ["a", "b", "c", "d"] = ["a", "b", "c", "d"]
    ∧ runQueue 1 ["a", "b", "c"] = ["a", "b", "c"].tail :=
  have h := retention_amended_capacity_plus_one 1 ["a", "b", "c"]
  ⟨h.1, h.2.1, h.2.2 (by decide)⟩

/-- C5: the Retention Buffer's length never exceeds capacity + 1 at the
instant before the eviction check (the state after any number of received
lines); the eviction in `runPush` fires exactly when the length exceeds the
capacity and removes exactly the front element, appending the new line behind
the preserved remainder; and the buffer really reaches length capacity + 1
(so the policy is eviction-after-the-previous-insert, not a capping
"evict before insert" that would keep the length at the capacity). -/
theorem retention_eviction_policy (cap : Nat) (lines : List String) :
    (∀ n, (runQueue cap (lines.take n)).length ≤ cap + 1)
    ∧ (∀ (q : List String) (l : String), cap < q.length → runPush cap q l = q.tail ++ [l])
    ∧ (∀ (q : List String) (l : String), q.length ≤ cap → runPush cap q l = q ++ [l])
    ∧ (cap + 1 ≤ lines.length → (runQueue cap (lines.take (cap + 1))).length = cap + 1) := by
  refine ⟨fun n => runQueue_length_le cap (lines.take n), ?_, ?_, fun hlen => ?_⟩
  · intro q l hq
    simp [runPush, if_pos hq]
  · intro q l hq
    simp [runPush]
    omega
  · rw [runQueue_eq]
    simp [List.length_drop, List.length_take]
    omega

/-- Witness for C5 at capacity 1 and lines ["a","b","c"]. -/
theorem retention_eviction_policy_witness :
    (runQueue 1 (["a", "b", "c"].take 2)).length ≤ 2
    ∧ runPush 1 ["a", "b"] "c" = ["a", "b"].tail ++ ["c"]
    ∧ runPush 1 ["a"] "b" = ["a"] ++ ["b"]
    ∧ (runQueue 1 (["a", "b", "c"].take 2)).length = 2 :=
  have h := retention_eviction_policy 1 ["a", "b", "c"]
  ⟨h.1 2, h.2.1 ["a", "b"] "c" (by decide), h.2.2.1 ["a"] "b" (by decide),
    h.2.2.2 (by decide)⟩

/-! ### Styled lines -/

theorem apply_style_at_length {σ : Type u} (s : List (Char × Option σ)) (i : Nat) (st : σ) :
    (apply_style_at s i st).length = s.length := by
  induction s generalizing i with
  | nil => rfl
  | cons p rest ih =>
    cases i with
    | zero => rfl
    | succ n => simp [apply_style_at, ih]

theorem apply_style_at_fst {σ : Type u} (s : List (Char × Option σ)) (i : Nat) (st : σ) :
    (apply_style_at s i st).map Prod.fst = s.map Prod.fst := by
  induction s generalizing i with
  | nil => rfl
  | cons p rest ih =>
    cases i with
    | zero => rfl
    | succ n => simp [apply_style_at, ih]

theorem styleAt_apply_style_at {σ : Type u} (s : List (Char × Option σ)) (i j : Nat) (st : σ) :
    styleAt (apply_style_at s i st) j
      = if j = i ∧ i < s.length then some st else styleAt s j := by
  induction s generalizing i j with
  | nil => simp [apply_style_at, styleAt]
  | cons p rest ih =>
    cases i with
    | zero =>
      cases j with
      | zero => simp [apply_style_at, styleAt]
      | succ m => simp [apply_style_at, styleAt]
    | succ n =>
      cases j with
      | zero => simp [apply_style_at, styleAt]
      | succ m =>
        have h := ih n m
        simp only [apply_style_at, styleAt, List.get?_cons_succ] at h ⊢
        rw [h]
        simp [Nat.succ_lt_succ_iff]

theorem applyIdx_length {σ : Type u} (st : σ) (idxs : List Nat) :
    ∀ acc : List (Char × Option σ), (applyIdx st acc idxs).length = acc.length := by
  induction idxs with
  | nil => intro acc; rfl
  | cons i rest ih =>
    intro acc
    rw [show applyIdx st acc (i :: rest) = applyIdx st (apply_style_at acc i st) rest from rfl,
      ih, apply_style_at_length]

theorem applyIdx_fst {σ : Type u} (st : σ) (idxs : List Nat) :
    ∀ acc : List (Char × Option σ), (applyIdx st acc idxs).map Prod.fst = acc.map Prod.fst := by
  induction idxs with
  | nil => intro acc; rfl
  | cons i rest ih =>
    intro acc
    rw [show applyIdx st acc (i :: rest) = applyIdx st (apply_style_at acc i st) rest from rfl,
      ih, apply_style_at_fst]

theorem styleAt_applyIdx {σ : Type u} (st : σ) (idxs : List Nat) :
    ∀ (acc : List (Char × Option σ)) (j : Nat),
      styleAt (applyIdx st acc idxs) j
        = if j ∈ idxs ∧ j < acc.length then some st else styleAt acc j := by
  induction idxs with
  | nil => intro acc j; simp [applyIdx]
  | cons i rest ih =>
    intro acc j
    rw [show applyIdx st acc (i :: rest) = applyIdx st (apply_style_at acc i st) rest from rfl,
      ih, apply_style_at_length, styleAt_apply_style_at]
    by_cases h1 : j ∈ rest ∧ j < acc.length
    · rw [if_pos h1, if_pos ⟨List.mem_cons_of_mem i h1.1, h1.2⟩]
    · rw [if_neg h1]
      by_cases h2 : j = i ∧ i < acc.length
      · rw [if_pos h2, if_pos ⟨by simp [h2.1], h2.1 ▸ h2.2⟩]
      · rw [if_neg h2, if_neg ?_]
        rintro ⟨hm, hlt⟩
        rcases List.mem_cons.mp hm with rfl | hm'
        · exact h2 ⟨rfl, hlt⟩
        · exact h1 ⟨hm', hlt⟩

theorem styleAt_map_none {σ : Type u} (l : List Char) (j : Nat) :
    styleAt (l.map (fun c => (c, (none : Option σ)))) j = none := by
  simp only [styleAt, List.get?_map]
  cases l.get? j <;> simp

theorem styled_foldl_eq_applyIdx {σ : Type u} (st : σ) (ms : List (Nat × Nat)) :
    ∀ acc : List (Char × Option σ),
      ms.foldl (fun acc m =>
          (List.range' m.1 (m.2 - m.1)).foldl (fun a i => apply_style_at a i st) acc) acc
        = applyIdx st acc (ms.flatMap rangeIdx) := by
  induction ms with
  | nil => intro acc; rfl
  | cons m rest ih =>
    intro acc
    rw [List.foldl_cons, ih, List.flatMap_cons]
    unfold applyIdx
    rw [List.foldl_append]
    rfl

theorem mem_flatMap_rangeIdx (ms : List (Nat × Nat)) (j : Nat) :
    j ∈ ms.flatMap rangeIdx ↔ inRanges ms j = true := by
  simp only [List.mem_flatMap, rangeIdx, List.mem_range'_1, inRanges, List.any_eq_true,
    Bool.and_eq_true, decide_eq_true_eq]
  constructor
  · rintro ⟨m, hm, h1, h2⟩
    exact ⟨m, hm, h1, by omega⟩
  · rintro ⟨m, hm, h1, h2⟩
    exact ⟨m, hm, h1, by omega⟩

/-! ### Matcher bounds and ordering -/

theorem lengthsF_le (ci : Bool) :
    ∀ (f : Nat) (r : Regex) (s : List Char), ∀ n ∈ lengthsF ci f r s, n ≤ s.length := by
  intro f
  induction f with
  | zero => intro r s n hn; simp [lengthsF] at hn
  | succ f ih =>
    intro r s n hn
    cases r with
    | fail => simp [lengthsF] at hn
    | eps =>
      simp [lengthsF] at hn
      omega
    | char c =>
      cases s with
      | nil => simp [lengthsF] at hn
      | cons x rest =>
        simp [lengthsF] at hn
        by_cases hc : charMatch ci c x
        · simp [hc] at hn
          simp [hn]
        · simp [hc] at hn
    | alt r1 r2 =>
      simp only [lengthsF, List.mem_append] at hn
      rcases hn with h | h
      · exact ih r1 s n h
      · exact ih r2 s n h
    | seq r1 r2 =>
      simp only [lengthsF, List.mem_flatMap, List.mem_map] at hn
      obtain ⟨n1, h1, n2, h2, rfl⟩ := hn
      have b1 := ih r1 s n1 h1
      have b2 := ih r2 (s.drop n1) n2 h2
      simp [List.length_drop] at b2
      omega
    | star r1 =>
      simp only [lengthsF, List.mem_append, List.mem_flatMap, List.mem_singleton] at hn
      rcases hn with ⟨n1, h1, h2⟩ | rfl
      · by_cases hp : 0 < n1
        · simp only [if_pos hp, List.mem_map] at h2
          obtain ⟨n2, h3, rfl⟩ := h2
          have b1 := ih r1 s n1 h1
          have b2 := ih (.star r1) (s.drop n1) n2 h3
          simp [List.length_drop] at b2
          omega
        · simp [if_neg hp] at h2
      · omega

theorem lengths_le (ci : Bool) (r : Regex) (s : List Char) :
    ∀ n ∈ lengths ci r s, n ≤ s.length :=
  lengthsF_le ci _ r s

theorem findAtAux_bounds (ci : Bool) (re : Regex) :
    ∀ (t : List Char) (i a b : Nat), findAtAux ci re t i = some (a, b) →
      i ≤ a ∧ a ≤ b ∧ b ≤ i + t.length := by
  intro t
  induction t with
  | nil =>
    intro i a b h
    cases hl : lengths ci re [] with
    | nil => simp [findAtAux, hl] at h
    | cons n tl =>
      simp [findAtAux, hl] at h
      obtain ⟨rfl, rfl⟩ := h
      have hn := lengths_le ci re [] n (by rw [hl]; exact List.mem_cons_self n tl)
      simp at hn
      omega
  | cons x rest ihr =>
    intro i a b h
    cases hl : lengths ci re (x :: rest) with
    | nil =>
      simp [findAtAux, hl] at h
      have := ihr (i + 1) a b h
      simp [List.length_cons]
      omega
    | cons n tl =>
      simp [findAtAux, hl] at h
      obtain ⟨rfl, rfl⟩ := h
      have hn := lengths_le ci re (x :: rest) n (by rw [hl]; exact List.mem_cons_self n tl)
      simp at hn
      simp [List.length_cons]
      omega

theorem find_at_bounds (ci : Bool) (re : Regex) (s : List Char) (p a b : Nat)
    (hp : p ≤ s.length) (h : find_at ci re s p = some (a, b)) :
    p ≤ a ∧ a ≤ b ∧ b ≤ s.length := by
  have hb := findAtAux_bounds ci re (s.drop p) p a b h
  simp [List.length_drop] at hb
  omega

theorem findIterGo_bounds (ci : Bool) (re : Regex) (s : List Char) :
    ∀ (f le : Nat) (lm : Option Nat) (m : Nat × Nat),
      m ∈ findIterGo ci re s f le lm → le ≤ m.1 ∧ m.1 ≤ m.2 ∧ m.2 ≤ s.length := by
  intro f
  induction f with
  | zero => intro le lm m hm; simp [findIterGo] at hm
  | succ f ih =>
    intro le lm m hm
    simp only [findIterGo] at hm
    by_cases hle : s.length < le
    · simp [hle] at hm
    · rw [if_neg hle] at hm
      cases hfa : find_at ci re s le with
      | none => rw [hfa] at hm; simp at hm
      | some mm =>
        obtain ⟨ms, me⟩ := mm
        rw [hfa] at hm
        simp only [] at hm
        have hb := find_at_bounds ci re s le ms me (by omega) hfa
        by_cases heq : ms = me
        · rw [if_pos heq] at hm
          by_cases hlm : lm = some me
          · rw [if_pos hlm] at hm
            have := ih (me + 1) lm m hm
            omega
          · rw [if_neg hlm] at hm
            rcases List.mem_cons.mp hm with rfl | hm'
            · exact ⟨hb.1, hb.2.1, hb.2.2⟩
            · have := ih (me + 1) (some me) m hm'
              omega
        · rw [if_neg heq] at hm
          rcases List.mem_cons.mp hm with rfl | hm'
          · exact ⟨hb.1, hb.2.1, hb.2.2⟩
          · have := ih me (some me) m hm'
            omega

theorem findIterGo_pairwise (ci : Bool) (re : Regex) (s : List Char) :
    ∀ (f le : Nat) (lm : Option Nat),
      (findIterGo ci re s f le lm).Pairwise (fun a b => a.2 ≤ b.1 ∧ a.1 < b.1) := by
  intro f
  induction f with
  | zero => intro le lm; simp [findIterGo]
  | succ f ih =>
    intro le lm
    simp only [findIterGo]
    by_cases hle : s.length < le
    · simp [hle]
    · rw [if_neg hle]
      cases hfa : find_at ci re s le with
      | none => simp
      | some mm =>
        obtain ⟨ms, me⟩ := mm
        simp only []
        have hb := find_at_bounds ci re s le ms me (by omega) hfa
        by_cases heq : ms = me
        · rw [if_pos heq]
          by_cases hlm : lm = some me
          · rw [if_pos hlm]
            exact ih (me + 1) lm
          · rw [if_neg hlm, List.pairwise_cons]
            refine ⟨fun m hm => ?_, ih (me + 1) (some me)⟩
            have hmb := findIterGo_bounds ci re s f (me + 1) (some me) m hm
            have hgoal : me ≤ m.1 ∧ ms < m.1 := by omega
            exact hgoal
        · rw [if_neg heq, List.pairwise_cons]
          refine ⟨fun m hm => ?_, ih me (some me)⟩
          have hmb := findIterGo_bounds ci re s f me (some me) m hm
          have hgoal : me ≤ m.1 ∧ ms < m.1 := by omega
          exact hgoal

theorem takeWhile_eq_filter_of_mono {α : Type u} (p : α → Bool) (R : α → α → Prop)
    (hR : ∀ a b, R a b → p b = true → p a = true) :
    ∀ l : List α, l.Pairwise R → l.takeWhile p = l.filter p := by
  intro l
  induction l with
  | nil => intro _; rfl
  | cons a t ih =>
    intro hp
    rw [List.pairwise_cons] at hp
    cases hpa : p a with
    | true =>
      rw [List.takeWhile_cons, List.filter_cons]
      simp only [hpa, if_pos]
      rw [ih hp.2]
    | false =>
      rw [List.takeWhile_cons, List.filter_cons]
      simp only [hpa, Bool.false_eq_true, if_neg, not_false_iff]
      symm
      rw [List.filter_eq_nil_iff]
      intro b hb hpb
      have := hR a b (hp.1 b hb) (by simpa using hpb)
      simp [hpa] at this

/-! ### Characterisation of matched and styled -/

theorem matched_eq_filter (qs : List (List Char)) (l : List Char) (ci : Bool)
    (re : Regex) (hre : buildMany qs = some re) :
    matched qs l ci = some ((findIter ci re l).filter (fun m => decide (m.1 < l.length))) := by
  unfold matched
  rw [hre]
  simp only []
  congr 1
  apply takeWhile_eq_filter_of_mono _ (fun a b => a.2 ≤ b.1 ∧ a.1 < b.1)
  · intro a b hab hpb
    simp only [decide_eq_true_eq] at hpb ⊢
    omega
  · exact findIterGo_pairwise ci re l (l.length + 2) 0 none

theorem matched_bounds (qs : List (List Char)) (l : List Char) (ci : Bool)
    (ms : List (Nat × Nat)) (h : matched qs l ci = some ms) :
    ∀ m ∈ ms, m.1 < l.length ∧ m.1 ≤ m.2 ∧ m.2 ≤ l.length := by
  cases hb : buildMany qs with
  | none =>
    unfold matched at h
    rw [hb] at h
    simp at h
  | some re =>
    rw [matched_eq_filter qs l ci re hb] at h
    injection h with h
    subst h
    intro m hm
    rw [List.mem_filter] at hm
    have hb2 := findIterGo_bounds ci re l (l.length + 2) 0 none m hm.1
    have hp := hm.2
    simp only [decide_eq_true_eq] at hp
    exact ⟨hp, hb2.2.1, hb2.2.2⟩

theorem styled_empty_query {σ : Type u} (l : List Char) (st : σ) (ci : Bool) :
    styled [] l st ci = some (l.map (fun c => (c, none))) := rfl

theorem styled_eq {σ : Type u} (q l : List Char) (st : σ) (ci : Bool) (hq : q ≠ []) :
    styled q l st ci =
      match matched (piped q) l ci with
      | none => none
      | some ms =>
        if ms.isEmpty then none
        else some (applyIdx st (l.map (fun c => (c, none))) (ms.flatMap rangeIdx)) := by
  unfold styled
  rw [if_neg (show ¬(q.isEmpty = true) by simp [hq])]
  cases matched (piped q) l ci with
  | none => rfl
  | some ms =>
    simp only []
    by_cases he : ms.isEmpty
    · rw [if_pos he, if_pos he]
    · rw [if_neg he, if_neg he]
      rw [styled_foldl_eq_applyIdx]

theorem lengthsF_fail (ci : Bool) (f : Nat) (s : List Char) :
    lengthsF ci f .fail s = [] := by
  cases f <;> rfl

theorem findAtAux_fail (ci : Bool) :
    ∀ (t : List Char) (i : Nat), findAtAux ci .fail t i = none := by
  intro t
  induction t with
  | nil => intro i; simp [findAtAux, lengths, lengthsF_fail]
  | cons x rest ih => intro i; simp [findAtAux, lengths, lengthsF_fail, ih]

theorem findIterGo_fail (ci : Bool) (s : List Char) :
    ∀ (f le : Nat) (lm : Option Nat), findIterGo ci .fail s f le lm = [] := by
  intro f
  cases f with
  | zero => intro le lm; rfl
  | succ f =>
    intro le lm
    simp [findIterGo, find_at, findAtAux_fail]

/-- The pipeline with zero accepted sub-patterns: the alternation is the regex
matching nothing, so the collected match list is empty (`Ok(vec![])`). -/
theorem matched_nil_queries (l : List Char) (ci : Bool) :
    matched [] l ci = some [] := by
  unfold matched buildMany parseAll
  simp only [List.foldr_nil]
  rw [show findIter ci .fail l = [] from findIterGo_fail ci l (l.length + 2) 0 none]
  rfl

theorem styled_of_matched_error {σ : Type u} (q l : List Char) (st : σ) (ci : Bool)
    (hq : q ≠ []) (h : matched (piped q) l ci = none) : styled q l st ci = none := by
  rw [styled_eq q l st ci hq, h]

theorem styled_of_matched_nil {σ : Type u} (q l : List Char) (st : σ) (ci : Bool)
    (hq : q ≠ []) (h : matched (piped q) l ci = some []) : styled q l st ci = none := by
  rw [styled_eq q l st ci hq, h]
  rfl

theorem parseAll_none_of_mem :
    ∀ {ps : List (List Char)} {p : List Char}, p ∈ ps → parsePattern p = none →
      parseAll ps = none := by
  intro ps
  induction ps with
  | nil => intro p hp _; simp at hp
  | cons a t ih =>
    intro p hp hf
    rcases List.mem_cons.mp hp with rfl | hp'
    · unfold parseAll
      rw [hf]
    · unfold parseAll
      rw [ih hp' hf]
      cases parsePattern a <;> rfl

theorem parseAll_mem :
    ∀ {ps : List (List Char)} {rs : List Regex} {p : List Char} {rp : Regex},
      parseAll ps = some rs → p ∈ ps → parsePattern p = some rp → rp ∈ rs := by
  intro ps
  induction ps with
  | nil => intro rs p rp _ hp _; simp at hp
  | cons a t ih =>
    intro rs p rp h hp hpp
    unfold parseAll at h
    cases ha : parsePattern a with
    | none => rw [ha] at h; simp at h
    | some r =>
      rw [ha] at h
      cases ht : parseAll t with
      | none => rw [ht] at h; simp at h
      | some rs' =>
        rw [ht] at h
        simp only [] at h
        injection h with h
        subst h
        rcases List.mem_cons.mp hp with rfl | hp'
        · rw [ha] at hpp
          injection hpp with e
          subst e
          exact List.mem_cons_self _ _
        · exact List.mem_cons_of_mem _ (ih ht hp' hpp)

theorem Regex.size_pos : ∀ r : Regex, 0 < r.size := by
  intro r
  cases r <;> simp [Regex.size]

theorem zero_mem_lengthsF (ci : Bool) :
    ∀ (r : Regex) (f : Nat) (s : List Char),
      nullable r = true → r.size ≤ f → 0 ∈ lengthsF ci f r s := by
  intro r
  induction r with
  | fail => intro f s h _; simp [nullable] at h
  | eps =>
    intro f s _ hf
    cases f with
    | zero => simp [Regex.size] at hf
    | succ f => simp [lengthsF]
  | char c => intro f s h _; simp [nullable] at h
  | alt r1 r2 ih1 ih2 =>
    intro f s h hf
    cases f with
    | zero => simp [Regex.size] at hf
    | succ f =>
      simp only [lengthsF, List.mem_append]
      simp only [nullable, Bool.or_eq_true] at h
      simp only [Regex.size] at hf
      rcases h with h | h
      · exact Or.inl (ih1 f s h (by omega))
      · exact Or.inr (ih2 f s h (by omega))
  | seq r1 r2 ih1 ih2 =>
    intro f s h hf
    cases f with
    | zero => simp [Regex.size] at hf
    | succ f =>
      simp only [nullable, Bool.and_eq_true] at h
      simp only [Regex.size] at hf
      simp only [lengthsF, List.mem_flatMap]
      refine ⟨0, ih1 f s h.1 (by omega), ?_⟩
      simp only [List.mem_map]
      exact ⟨0, by simpa using ih2 f s h.2 (by omega), rfl⟩
  | star r1 ih =>
    intro f s _ hf
    cases f with
    | zero =>
      have := Regex.size_pos (Regex.star r1)
      omega
    | succ f => simp [lengthsF]

theorem zero_mem_alternation (ci : Bool) :
    ∀ (rs : List Regex) (rp : Regex) (f : Nat) (s : List Char),
      rp ∈ rs → nullable rp = true → (rs.foldr Regex.alt Regex.fail).size ≤ f →
      0 ∈ lengthsF ci f (rs.foldr Regex.alt Regex.fail) s := by
  intro rs
  induction rs with
  | nil => intro rp f s h _ _; simp at h
  | cons r t ih =>
    intro rp f s hmem hnull hf
    simp only [List.foldr_cons] at hf ⊢
    cases f with
    | zero =>
      have := Regex.size_pos (Regex.alt r (t.foldr Regex.alt Regex.fail))
      omega
    | succ f =>
      simp only [Regex.size] at hf
      simp only [lengthsF, List.mem_append]
      rcases List.mem_cons.mp hmem with rfl | hmem'
      · exact Or.inl (zero_mem_lengthsF ci rp f s hnull (by omega))
      · exact Or.inr (ih rp f s hmem' hnull (by omega))

theorem find_at_zero_of_match (ci : Bool) (re : Regex) (l : List Char)
    (h : lengths ci re l ≠ []) : ∃ n, find_at ci re l 0 = some (0, n) := by
  have hd : List.drop 0 l = l := List.drop_zero l
  unfold find_at
  rw [hd]
  cases l with
  | nil =>
    cases hl : lengths ci re [] with
    | nil => exact absurd hl h
    | cons n tl => exact ⟨n, by simp [findAtAux, hl]⟩
  | cons x rest =>
    cases hl : lengths ci re (x :: rest) with
    | nil => exact absurd hl h
    | cons n tl => exact ⟨n, by simp [findAtAux, hl]⟩

/-! ### Claims about the match engine -/

/-- C2 counterexample: the query "|" trims to the empty sub-pattern set, yet
`styled` returns `none` on the line "a" (the code tests emptiness of the raw
query, and the empty pattern set compiles to a regex matching nothing),
whereas the truly empty query returns the line unmodified and unstyled. -/
theorem blank_query_cex :
    styled ("|".toList) ("a".toList) true false = none
    ∧ styled ([] : List Char) ("a".toList) true false
        = some (("a".toList).map (fun c => (c, (none : Option Bool)))) := by
  constructor
  · decide
  · decide

/-- C2 (amended): the empty query returns every line unmodified and unstyled;
but a query that is non-empty yet trims to an empty sub-pattern set after
splitting on `|`, trimming and dropping empties (e.g. only `|` and whitespace)
returns `none` for every line — its behaviour is not identical to the empty
query. -/
theorem blank_query_amended {σ : Type u} (l : List Char) (st : σ) (ci : Bool) :
    styled [] l st ci = some (l.map (fun c => (c, none)))
    ∧ ∀ q : List Char, q ≠ [] → piped q = [] → styled q l st ci = none := by
  refine ⟨styled_empty_query l st ci, fun q hq hpip => ?_⟩
  apply styled_of_matched_nil q l st ci hq
  rw [hpip]
  exact matched_nil_queries l ci

/-- Witness for the amended C2 at the line "a" and the blank query "|". -/
theorem blank_query_amended_witness :
    styled ([] : List Char) ("a".toList) true false
      = some (("a".toList).map (fun c => (c, (none : Option Bool))))
    ∧ styled ("|".toList) ("a".toList) true false = none :=
  have h := blank_query_amended "a".toList true false
  ⟨h.1, h.2 "|".toList (by decide) (by decide)⟩

/-- C3: for every non-empty query, `styled` returns `none` exactly when the
set of collected match ranges is empty (in particular also on a compile
error, where no range exists); otherwise it returns the line with the
highlight style at exactly the positions inside some matched range and no
style anywhere else. -/
theorem styled_none_iff_no_ranges {σ : Type u} (q l : List Char) (st : σ) (ci : Bool)
    (hq : q ≠ []) :
    (styled q l st ci = none ↔ rangesOf q l ci = [])
    ∧ ∀ s, styled q l st ci = some s →
        ∀ i, styleAt s i = if inRanges (rangesOf q l ci) i then some st else none := by
  cases hm : matched (piped q) l ci with
  | none =>
    constructor
    · rw [styled_eq q l st ci hq, hm]
      simp [rangesOf, hm]
    · intro s hs
      rw [styled_eq q l st ci hq, hm] at hs
      exact absurd hs (by simp)
  | some ms =>
    have hr : rangesOf q l ci = ms := by simp [rangesOf, hm]
    by_cases he : ms = []
    · subst he
      constructor
      · rw [styled_eq q l st ci hq, hm]
        simp [hr]
      · intro s hs
        rw [styled_eq q l st ci hq, hm] at hs
        simp at hs
    · constructor
      · rw [styled_eq q l st ci hq, hm]
        simp [hr, he]
      · intro s hs
        rw [styled_eq q l st ci hq, hm] at hs
        simp only [] at hs
        rw [if_neg (by simpa using he)] at hs
        injection hs with hs
        subst hs
        intro i
        rw [styleAt_applyIdx, styleAt_map_none, hr]
        simp only [List.length_map]
        by_cases hin : inRanges ms i = true
        · rw [if_pos hin]
          have hmem : i ∈ ms.flatMap rangeIdx := (mem_flatMap_rangeIdx ms i).mpr hin
          have hbd := matched_bounds (piped q) l ci ms hm
          have hi : i < l.length := by
            have hex : ∃ m ∈ ms, m.1 ≤ i ∧ i < m.2 := by
              simpa [inRanges, List.any_eq_true] using hin
            obtain ⟨m, hm2, _, h2⟩ := hex
            have := hbd m hm2
            omega
          rw [if_pos ⟨hmem, hi⟩]
        · rw [if_neg hin, if_neg ?_]
          rintro ⟨hmem, _⟩
          exact hin ((mem_flatMap_rangeIdx ms i).mp hmem)

/-- Witness for C3: the query "err" on the line "error: x" matches at the
range [0, 3). -/
theorem styled_none_iff_no_ranges_witness :
    ((styled ("err".toList) ("error: x".toList) 1 false = none
        ↔ rangesOf ("err".toList) ("error: x".toList) false = [])
    ∧ ∀ s, styled ("err".toList) ("error: x".toList) 1 false = some s →
        ∀ i, styleAt s i
          = if inRanges (rangesOf ("err".toList) ("error: x".toList) false) i
            then some 1 else none) :=
  styled_none_iff_no_ranges ("err".toList) ("error: x".toList) 1 false (by decide)

/-- C4: if any sub-pattern of the query fails to compile, `styled` returns
`none` — the compile error is swallowed (treated as "no match") and never
propagated. -/
theorem styled_invalid_pattern_none {σ : Type u} (q l : List Char) (st : σ) (ci : Bool)
    (p : List Char) (hp : p ∈ piped q) (hfail : parsePattern p = none) :
    styled q l st ci = none := by
  have hq : q ≠ [] := by
    intro h
    subst h
    have : piped ([] : List Char) = [] := by decide
    rw [this] at hp
    exact absurd hp (List.not_mem_nil p)
  have hpa : parseAll (piped q) = none := parseAll_none_of_mem hp hfail
  have hbm : buildMany (piped q) = none := by
    unfold buildMany
    rw [hpa]
  apply styled_of_matched_error q l st ci hq
  unfold matched
  rw [hbm]

/-- Witness for C4: the query "(" (an unclosed group) makes `styled` return
`none` on the line "a". -/
theorem styled_invalid_pattern_none_witness :
    styled ("(".toList) ("a".toList) true false = none :=
  styled_invalid_pattern_none ("(".toList) ("a".toList) true false ("(".toList)
    (by decide) (by decide)

theorem styled_length {σ : Type u} (q l : List Char) (st : σ) (ci : Bool)
    (s : List (Char × Option σ)) (h : styled q l st ci = some s) : s.length = l.length := by
  by_cases hq : q = []
  · subst hq
    rw [styled_empty_query] at h
    injection h with h
    subst h
    simp
  · rw [styled_eq q l st ci hq] at h
    cases hm : matched (piped q) l ci with
    | none =>
      rw [hm] at h
      exact absurd h (by simp)
    | some ms =>
      rw [hm] at h
      simp only [] at h
      by_cases he : ms.isEmpty
      · rw [if_pos he] at h
        exact absurd h (by simp)
      · rw [if_neg he] at h
        injection h with h
        subst h
        rw [applyIdx_length]
        simp

/-- C7: whenever `styled` returns a match, every position carrying the
highlight style lies within the bounds of the line — nothing is styled at or
beyond its end. -/
theorem styled_indices_in_bounds {σ : Type u} (q l : List Char) (st : σ) (ci : Bool)
    (s : List (Char × Option σ)) (h : styled q l st ci = some s) :
    ∀ i, styleAt s i ≠ none → i < l.length := by
  intro i hi
  have hlen := styled_length q l st ci s h
  by_contra hge
  push_neg at hge
  have hnone : s.get? i = none := List.get?_eq_none.mpr (by omega)
  simp [styleAt, List.get?_eq_getElem?] at hi
  rw [List.get?_eq_getElem?] at hnone
  rw [hnone] at hi
  simp at hi

/-- Witness for C7: the query "err" on the line "err!", at the styled
position 0. -/
theorem styled_indices_in_bounds_witness :
    (0 : Nat) < ("err!".toList).length :=
  styled_indices_in_bounds ("err".toList) ("err!".toList) 2 false
    [('e', some 2), ('r', some 2), ('r', some 2), ('!', (none : Option Nat))]
    (by decide) 0 (by decide)

/-- C9: whenever `styled` returns a styled line, its character content is
exactly the input line — highlighting never inserts, deletes or alters text. -/
theorem styled_preserves_content {σ : Type u} (q l : List Char) (st : σ) (ci : Bool)
    (s : List (Char × Option σ)) (h : styled q l st ci = some s) :
    s.map Prod.fst = l := by
  by_cases hq : q = []
  · subst hq
    rw [styled_empty_query] at h
    injection h with h
    subst h
    simp [Function.comp_def]
  · rw [styled_eq q l st ci hq] at h
    cases hm : matched (piped q) l ci with
    | none =>
      rw [hm] at h
      exact absurd h (by simp)
    | some ms =>
      rw [hm] at h
      simp only [] at h
      by_cases he : ms.isEmpty
      · rw [if_pos he] at h
        exact absurd h (by simp)
      · rw [if_neg he] at h
        injection h with h
        subst h
        rw [applyIdx_fst]
        simp [Function.comp_def]

/-- Witness for C9: the query "err" on the line "err!". -/
theorem styled_preserves_content_witness :
    ([('e', some 3), ('r', some 3), ('r', some 3), ('!', (none : Option Nat))]).map Prod.fst
      = "err!".toList :=
  styled_preserves_content ("err".toList) ("err!".toList) 3 false _ (by decide)

/-- C6: for every successfully built multi-pattern matcher, `matched` collects
exactly the iterator's matches whose start lies before the end of the line
(stopping at, hence rejecting, the only possible further match: the zero-length
match at the end); the scan is left-to-right and the matches are
non-overlapping. -/
theorem matched_scan_properties (qs : List (List Char)) (l : List Char) (ci : Bool)
    (re : Regex) (hre : buildMany qs = some re) :
    matched qs l ci = some ((findIter ci re l).filter (fun m => decide (m.1 < l.length)))
    ∧ (∀ m ∈ findIter ci re l,
        m.1 ≤ m.2 ∧ m.2 ≤ l.length ∧ (l.length ≤ m.1 → m.1 = l.length ∧ m.2 = l.length))
    ∧ (findIter ci re l).Pairwise (fun a b => a.2 ≤ b.1 ∧ a.1 < b.1)
    ∧ ∀ ms, matched qs l ci = some ms → ∀ m ∈ ms, m.1 < l.length := by
  refine ⟨matched_eq_filter qs l ci re hre, ?_, ?_, ?_⟩
  · intro m hm
    have hb := findIterGo_bounds ci re l (l.length + 2) 0 none m hm
    exact ⟨hb.2.1, hb.2.2, fun h => by omega⟩
  · exact findIterGo_pairwise ci re l (l.length + 2) 0 none
  · intro ms hms m hm
    exact (matched_bounds qs l ci ms hms m hm).1

/-- Witness for C6: the sub-pattern "z*" on the line "ab"; the iterator yields
the zero-length matches (0,0), (1,1) and (2,2), and `matched` keeps only the
first two, the end-of-line match being rejected. -/
theorem matched_scan_properties_witness :
    (matched [['z', '*']] ("ab".toList) false
        = some ((findIter false
              (Regex.alt (Regex.seq Regex.eps (Regex.star (Regex.char 'z'))) Regex.fail)
              ("ab".toList)).filter (fun m => decide (m.1 < ("ab".toList).length)))
    ∧ (∀ m ∈ findIter false
          (Regex.alt (Regex.seq Regex.eps (Regex.star (Regex.char 'z'))) Regex.fail)
          ("ab".toList),
        m.1 ≤ m.2 ∧ m.2 ≤ ("ab".toList).length
          ∧ (("ab".toList).length ≤ m.1
              → m.1 = ("ab".toList).length ∧ m.2 = ("ab".toList).length))
    ∧ (findIter false
          (Regex.alt (Regex.seq Regex.eps (Regex.star (Regex.char 'z'))) Regex.fail)
          ("ab".toList)).Pairwise (fun a b => a.2 ≤ b.1 ∧ a.1 < b.1)
    ∧ ∀ ms, matched [['z', '*']] ("ab".toList) false = some ms
        → ∀ m ∈ ms, m.1 < ("ab".toList).length) :=
  matched_scan_properties [['z', '*']] ("ab".toList) false
    (Regex.alt (Regex.seq Regex.eps (Regex.star (Regex.char 'z'))) Regex.fail) (by decide)

/-- C8: on the query "foo|bar" and the line "a foo and bar", the engine
returns a match with exactly the two disjoint ranges [2,5) and [10,13),
covering "foo" and "bar", and the styled line carries the highlight exactly at
positions 2,3,4 and 10,11,12. -/
theorem styled_multi_pattern_union :
    rangesOf ("foo|bar".toList) ("a foo and bar".toList) false = [(2, 5), (10, 13)]
    ∧ (styled ("foo|bar".toList) ("a foo and bar".toList) true false).map
        (fun s => (List.range s.length).filter (fun i => (styleAt s i).isSome))
      = some [2, 3, 4, 10, 11, 12] := by
  constructor
  · decide
  · decide

/-- C10 counterexample: the query "z*|(" is non-empty and contains the
sub-pattern "z*", which matches the empty string, yet on the non-empty line
"ab" the engine returns `none`: the other sub-pattern "(" fails to compile and
the whole build fails. -/
theorem nullable_subpattern_cex :
    ("z*|(".toList ≠ [])
    ∧ (['z', '*'] ∈ piped ("z*|(".toList))
    ∧ parsePattern ['z', '*'] = some (Regex.seq Regex.eps (Regex.star (Regex.char 'z')))
    ∧ nullable (Regex.seq Regex.eps (Regex.star (Regex.char 'z'))) = true
    ∧ ("ab".toList ≠ [])
    ∧ styled ("z*|(".toList) ("ab".toList) true false = none := by
  refine ⟨by decide, by decide, by decide, by decide, by decide, by decide⟩

/-- C10 (amended): for every non-empty query whose sub-patterns all compile
and that contains a sub-pattern matching the empty string, every non-empty
line yields a match: zero-length regex matches strictly before the end of the
line are accepted, so `styled` returns `some`. -/
theorem nullable_subpattern_amended {σ : Type u} (q l : List Char) (st : σ) (ci : Bool)
    (hq : q ≠ []) (hl : l ≠ []) (re : Regex) (hre : buildMany (piped q) = some re)
    (p : List Char) (rp : Regex) (hp : p ∈ piped q) (hrp : parsePattern p = some rp)
    (hnull : nullable rp = true) :
    (styled q l st ci).isSome := by
  obtain ⟨rs, hrs, hfold⟩ :
      ∃ rs, parseAll (piped q) = some rs ∧ re = rs.foldr Regex.alt Regex.fail := by
    unfold buildMany at hre
    cases hpa : parseAll (piped q) with
    | none => rw [hpa] at hre; simp at hre
    | some rs =>
      rw [hpa] at hre
      simp only [] at hre
      injection hre with hre
      exact ⟨rs, rfl, hre.symm⟩
  subst hfold
  have hmem := parseAll_mem hrs hp hrp
  have h0 : 0 ∈ lengths ci (rs.foldr Regex.alt Regex.fail) l := by
    unfold lengths
    apply zero_mem_alternation ci rs rp _ l hmem hnull
    have h1 : (rs.foldr Regex.alt Regex.fail).size + 1
        ≤ ((rs.foldr Regex.alt Regex.fail).size + 1) * (l.length + 2) :=
      Nat.le_mul_of_pos_right _ (by omega)
    omega
  have hne : lengths ci (rs.foldr Regex.alt Regex.fail) l ≠ [] := List.ne_nil_of_mem h0
  obtain ⟨n, hfa⟩ := find_at_zero_of_match ci _ l hne
  have hfi : ∃ rest, findIter ci (rs.foldr Regex.alt Regex.fail) l = (0, n) :: rest := by
    unfold findIter
    rw [show l.length + 2 = (l.length + 1) + 1 from rfl]
    simp only [findIterGo]
    rw [if_neg (by omega), hfa]
    simp only []
    by_cases h0n : (0 : Nat) = n
    · rw [if_pos h0n, if_neg (by simp)]
      exact ⟨_, rfl⟩
    · rw [if_neg h0n]
      exact ⟨_, rfl⟩
  obtain ⟨rest, hfi⟩ := hfi
  have hlpos : 0 < l.length := List.length_pos.mpr hl
  have hmt : matched (piped q) l ci
      = some ((0, n) :: (rest.takeWhile fun m => decide (m.1 < l.length))) := by
    unfold matched
    rw [show buildMany (piped q) = some (rs.foldr Regex.alt Regex.fail) from by
      unfold buildMany; rw [hrs]]
    simp only []
    rw [hfi, List.takeWhile_cons]
    simp [hlpos]
  rw [styled_eq q l st ci hq, hmt]
  simp

/-- Witness for the amended C10: the query "z*" on the line "ab" matches with
only zero-width ranges, styling no byte. -/
theorem nullable_subpattern_amended_witness :
    (styled ("z*".toList) ("ab".toList) true false).isSome
    ∧ rangesOf ("z*".toList) ("ab".toList) false = [(0, 0), (1, 1)] :=
  have h := nullable_subpattern_amended ("z*".toList) ("ab".toList) true false
    (by decide) (by decide)
    (Regex.alt (Regex.seq Regex.eps (Regex.star (Regex.char 'z'))) Regex.fail) (by decide)
    ['z', '*'] (Regex.seq Regex.eps (Regex.star (Regex.char 'z'))) (by decide) (by decide)
    (by decide)
  ⟨h, by decide⟩
